import Mathlib

/-!
Verification development for the frogy attack-surface discovery pipeline
(`frogy.py`).  The Python source is shallowly embedded: strings are Lean
`String`s (lists of characters), Python lists are Lean `List`s, Python dicts
are association lists with `List.lookup` (all dicts built here have unique
keys), and the in-process fallback paths of the pipeline (taken when the
external helper tools are absent) are the embedded code.  All hosts handled
by the pipeline come from `read_file_lines` and are single lines, so strings
carry no newline and the `$` regex anchor is modelled as end-of-string.
-/

set_option maxRecDepth 10000

/-- Python `str.isspace` characters relevant to `str.strip()` (ASCII range,
as produced by the pipeline's line-oriented inputs). -/
def pyIsSpace (c : Char) : Bool :=
  c = ' ' || c = '\t' || c = '\n' || c = '\r' || c = '\x0b' || c = '\x0c'

/-- Python `str.strip()` on a character list: drop whitespace from both ends. -/
def pyStripL (l : List Char) : List Char :=
  ((l.dropWhile pyIsSpace).reverse.dropWhile pyIsSpace).reverse

/-- Python `str.lower()` on a character list (ASCII case mapping, which is all
the pipeline's domain-name data exercises). -/
def pyLowerL (l : List Char) : List Char :=
  l.map Char.toLower

/-- Python `s.strip()` on strings. -/
def pyStrip (s : String) : String :=
  ⟨pyStripL s.data⟩

/-- Python `s.lower()` on strings. -/
def pyLower (s : String) : String :=
  ⟨pyLowerL s.data⟩

/-- The deduplication key used by `unique_lines` and by the `run_anew`
fallback: `line.lower().strip()` (frogy.py line 303 and 353). -/
def uniqueKey (s : String) : String :=
  pyStrip (pyLower s)

/-- Loop of `unique_lines` (frogy.py lines 298-307): `seen` is the set of keys
already emitted; a line is kept iff its key is nonempty and unseen, and the
line is kept with its original spelling. -/
def uniqueLinesAux : List String → List String → List String
  | _, [] => []
  | seen, l :: ls =>
    if uniqueKey l ≠ "" ∧ uniqueKey l ∉ seen then
      l :: uniqueLinesAux (uniqueKey l :: seen) ls
    else
      uniqueLinesAux seen ls

/-- `unique_lines` (frogy.py lines 298-307): remove duplicates while
preserving order, keying on the lowercased+stripped form. -/
def unique_lines (lines : List String) : List String :=
  uniqueLinesAux [] lines

/-- In-process fallback of `run_anew` (frogy.py lines 351-354, taken when the
`anew` tool is unavailable): keep the new lines whose lowercased+stripped key
is not among the keys of the existing lines. -/
def run_anew (new_lines existing_lines : List String) : List String :=
  new_lines.filter (fun l => decide (uniqueKey l ∉ existing_lines.map uniqueKey))

/-- One accumulator merge as performed by every enumeration stage
(e.g. `amass_enumeration`, frogy.py lines 479-480):
`domains = run_anew(domains, self.all_domains); self.all_domains.extend(domains)`.
Returns the delta and the new accumulator contents (`all()`). -/
def merge_new (candidates acc : List String) : List String × List String :=
  let d := run_anew candidates acc
  (d, acc ++ d)

theorem mem_run_anew_self {l : String} {X acc : List String}
    (hX : l ∈ X) (hk : uniqueKey l ∉ acc.map uniqueKey) :
    l ∈ run_anew X acc := by
  unfold run_anew
  exact List.mem_filter.mpr ⟨hX, by simpa using hk⟩

theorem run_anew_exhausted (X acc : List String) :
    run_anew X (acc ++ run_anew X acc) = [] := by
  unfold run_anew
  rw [List.filter_eq_nil_iff]
  intro l hl
  simp only [decide_eq_true_eq, not_not, List.map_append, List.mem_append]
  by_cases h : uniqueKey l ∈ acc.map uniqueKey
  · exact Or.inl h
  · refine Or.inr (List.mem_map.mpr ⟨l, ?_, rfl⟩)
    exact mem_run_anew_self hl h

/-- C1: on a fresh Accumulator, merging a candidate list `X`, then merging the
same list again, yields an empty delta the second time and leaves the
accumulated sequence (`all()`) unchanged — for every input list. -/
theorem merge_new_idempotent_second (X : List String) :
    (merge_new X (merge_new X []).2).1 = [] ∧
    (merge_new X (merge_new X []).2).2 = (merge_new X []).2 := by
  unfold merge_new
  simp only
  constructor
  · have h := run_anew_exhausted X []
    simpa using h
  · have h := run_anew_exhausted X []
    simp only [List.nil_append] at h ⊢
    rw [show run_anew X (run_anew X []) = [] from by simpa using h]
    simp

theorem uniqueLinesAux_sublist (seen : List String) (xs : List String) :
    (uniqueLinesAux seen xs).Sublist xs := by
  induction xs generalizing seen with
  | nil => simp [uniqueLinesAux]
  | cons l ls ih =>
    unfold uniqueLinesAux
    by_cases h : uniqueKey l ≠ "" ∧ uniqueKey l ∉ seen
    · simp only [if_pos h]
      exact (ih (uniqueKey l :: seen)).cons₂ l
    · simp only [if_neg h]
      exact (ih seen).cons l

theorem mem_uniqueLinesAux {seen xs : List String} {l : String}
    (h : l ∈ uniqueLinesAux seen xs) :
    uniqueKey l ≠ "" ∧ uniqueKey l ∉ seen := by
  induction xs generalizing seen with
  | nil => simp [uniqueLinesAux] at h
  | cons x ls ih =>
    unfold uniqueLinesAux at h
    by_cases hx : uniqueKey x ≠ "" ∧ uniqueKey x ∉ seen
    · simp only [if_pos hx] at h
      rcases List.mem_cons.mp h with h | h
      · subst h; exact hx
      · have := ih h
        exact ⟨this.1, fun hs => this.2 (List.mem_cons_of_mem _ hs)⟩
    · simp only [if_neg hx] at h
      exact ih h

theorem uniqueLinesAux_keys_nodup (seen : List String) (xs : List String) :
    ((uniqueLinesAux seen xs).map uniqueKey).Nodup := by
  induction xs generalizing seen with
  | nil => simp [uniqueLinesAux]
  | cons l ls ih =>
    unfold uniqueLinesAux
    by_cases h : uniqueKey l ≠ "" ∧ uniqueKey l ∉ seen
    · simp only [if_pos h, List.map_cons, List.nodup_cons]
      refine ⟨?_, ih (uniqueKey l :: seen)⟩
      intro hmem
      rcases List.mem_map.mp hmem with ⟨l', hl', hk⟩
      exact (mem_uniqueLinesAux hl').2 (by rw [hk]; exact List.mem_cons_self _ _)
    · simp only [if_neg h]
      exact ih seen

theorem uniqueLinesAux_keeps_first {l : String} (ys : List String)
    (seen zs : List String)
    (hne : uniqueKey l ≠ "") (hseen : uniqueKey l ∉ seen)
    (hys : uniqueKey l ∉ ys.map uniqueKey) :
    l ∈ uniqueLinesAux seen (ys ++ l :: zs) := by
  induction ys generalizing seen with
  | nil =>
    simp only [List.nil_append]
    unfold uniqueLinesAux
    simp only [if_pos (And.intro hne hseen)]
    exact List.mem_cons_self _ _
  | cons y ys' ih =>
    have hy : uniqueKey l ≠ uniqueKey y := by
      intro h
      exact hys (by simp [h])
    have hys' : uniqueKey l ∉ ys'.map uniqueKey := by
      intro h
      exact hys (by simp [h])
    simp only [List.cons_append]
    unfold uniqueLinesAux
    by_cases hk : uniqueKey y ≠ "" ∧ uniqueKey y ∉ seen
    · simp only [if_pos hk]
      refine List.mem_cons_of_mem _ (ih (uniqueKey y :: seen) ?_ hys')
      intro h
      rcases List.mem_cons.mp h with h | h
      · exact hy h
      · exact hseen h
    · simp only [if_neg hk]
      exact ih seen hseen hys'

theorem uniqueLinesAux_covers {seen xs : List String} {l : String}
    (hl : l ∈ xs) (hne : uniqueKey l ≠ "") (hseen : uniqueKey l ∉ seen) :
    uniqueKey l ∈ (uniqueLinesAux seen xs).map uniqueKey := by
  induction xs generalizing seen with
  | nil => simp at hl
  | cons x ls ih =>
    unfold uniqueLinesAux
    by_cases hx : uniqueKey x ≠ "" ∧ uniqueKey x ∉ seen
    · simp only [if_pos hx, List.map_cons]
      by_cases heq : uniqueKey l = uniqueKey x
      · rw [heq]; exact List.mem_cons_self _ _
      · rcases List.mem_cons.mp hl with h | h
        · exact absurd (by rw [h]) heq
        · refine List.mem_cons_of_mem _ (ih h ?_)
          intro hs
          rcases List.mem_cons.mp hs with hs | hs
          · exact heq hs
          · exact hseen hs
    · simp only [if_neg hx]
      rcases List.mem_cons.mp hl with h | h
      · subst h
        rcases not_and_or.mp hx with hx | hx
        · exact absurd hne (by simpa using hx)
        · exact absurd (not_not.mp hx) hseen
      · exact ih h hseen

theorem uniqueLinesAux_fixed {ys : List String} (seen : List String)
    (hnd : (ys.map uniqueKey).Nodup)
    (hmem : ∀ l ∈ ys, uniqueKey l ≠ "" ∧ uniqueKey l ∉ seen) :
    uniqueLinesAux seen ys = ys := by
  induction ys generalizing seen with
  | nil => rfl
  | cons y ys' ih =>
    unfold uniqueLinesAux
    have hy := hmem y (List.mem_cons_self _ _)
    simp only [if_pos hy]
    congr 1
    refine ih _ ?_ ?_
    · exact (List.nodup_cons.mp hnd).2
    · intro l hl
      refine ⟨(hmem l (List.mem_cons_of_mem _ hl)).1, ?_⟩
      intro hs
      rcases List.mem_cons.mp hs with hs | hs
      · exact (List.nodup_cons.mp hnd).1 (hs ▸ List.mem_map_of_mem uniqueKey hl)
      · exact (hmem l (List.mem_cons_of_mem _ hl)).2 hs

/-- C10: `unique_lines` keeps, in input order and with original spelling,
exactly the first occurrence of every distinct nonempty key (the key being
the lowercased, whitespace-stripped form); lines with an empty key are
dropped, and `unique_lines` is idempotent. -/
theorem unique_lines_spec (xs : List String) :
    (unique_lines xs).Sublist xs ∧
    ((unique_lines xs).map uniqueKey).Nodup ∧
    (∀ l ∈ unique_lines xs, uniqueKey l ≠ "") ∧
    (∀ ys l zs, xs = ys ++ l :: zs → uniqueKey l ≠ "" →
      uniqueKey l ∉ ys.map uniqueKey → l ∈ unique_lines xs) ∧
    (∀ l ∈ xs, uniqueKey l ≠ "" →
      uniqueKey l ∈ (unique_lines xs).map uniqueKey) ∧
    unique_lines (unique_lines xs) = unique_lines xs := by
  refine ⟨uniqueLinesAux_sublist [] xs, uniqueLinesAux_keys_nodup [] xs,
    fun l hl => (mem_uniqueLinesAux hl).1, ?_, ?_, ?_⟩
  · intro ys l zs hxs hne hys
    rw [hxs]
    exact uniqueLinesAux_keeps_first ys [] zs hne (by simp) hys
  · intro l hl hne
    exact uniqueLinesAux_covers hl hne (by simp)
  · refine uniqueLinesAux_fixed [] (uniqueLinesAux_keys_nodup [] xs) ?_
    intro l hl
    exact ⟨(mem_uniqueLinesAux hl).1, by simp⟩

/-- Witness for C10 at a concrete list: the first spelling of a repeated key
is kept, the result is a duplicate-free-keyed sublist, and a second
application changes nothing. -/
theorem unique_lines_spec_witness :
    ("x.com" ∈ unique_lines ["x.com", "X.com ", "", "y.org"]) ∧
    (unique_lines ["x.com", "X.com ", "", "y.org"]).Sublist
      ["x.com", "X.com ", "", "y.org"] ∧
    unique_lines (unique_lines ["x.com", "X.com ", "", "y.org"]) =
      unique_lines ["x.com", "X.com ", "", "y.org"] := by
  have h := unique_lines_spec ["x.com", "X.com ", "", "y.org"]
  refine ⟨?_, h.1, h.2.2.2.2.2⟩
  exact h.2.2.2.1 [] "x.com" ["X.com ", "", "y.org"] rfl (by decide) (by decide)

/-- C2 (code evaluated at the failing input): the in-process `run_anew`
fallback checks new lines only against the existing lines, not against each
other, so a fresh-accumulator merge of `["x.com", "X.com"]` appends both raw
spellings and the accumulated list holds the canonical form `"x.com"` twice —
violating the no-duplicate-canonical-form invariant the spec states for the
Accumulator. -/
theorem merge_new_intra_batch_duplicate :
    merge_new ["x.com", "X.com"] [] = (["x.com", "X.com"], ["x.com", "X.com"]) ∧
    ¬ ((merge_new ["x.com", "X.com"] []).2.map uniqueKey).Nodup := by
  constructor
  · decide
  · decide

/-- Python `s.rstrip(".")`: remove every trailing dot. -/
def rstripDots (l : List Char) : List Char :=
  (l.reverse.dropWhile (fun c => c = '.')).reverse

/-- The join key of `build_results_table` (frogy.py lines 933 and 944):
`domain.lower().strip().rstrip('.')`. -/
def joinKey (s : String) : String :=
  ⟨rstripDots (pyStripL (pyLowerL s.data))⟩

/-- C3 counterexample: `"Example.COM. "` and `"example.com"` do NOT get the
same canonical key where strings enter the Accumulator — `unique_lines` keys
only on `lower().strip()` with no dot stripping, so it keeps both raws as two
assets; moreover the join key strips every trailing dot, not a single one. -/
theorem accumulator_key_keeps_trailing_dot :
    uniqueKey "Example.COM. " ≠ uniqueKey "example.com" ∧
    unique_lines ["Example.COM. ", "example.com"] =
      ["Example.COM. ", "example.com"] ∧
    joinKey "x.com.." = "x.com" := by
  refine ⟨by decide, by decide, by decide⟩

/-- C3 amended: only the report join key (`build_results_table`) lowercases,
trims and strips all trailing dots, mapping `"Example.COM. "` and
`"example.com"` to the one key `"example.com"`; at Accumulator entry the key
is just the lowercased trimmed form, which keeps the trailing dot, so the two
raws stay distinct there. -/
theorem join_key_canonicalizes :
    joinKey "Example.COM. " = "example.com" ∧
    joinKey "example.com" = "example.com" ∧
    uniqueKey "Example.COM. " = "example.com." ∧
    uniqueKey "example.com" = "example.com" := by
  refine ⟨by decide, by decide, by decide, by decide⟩

/-- The `host` field of one line of `resolved.json`: absent, a JSON string,
or a JSON list of strings (frogy.py lines 741-746 handle all three). -/
inductive HostField where
  | absent : HostField
  | str : String → HostField
  | list : List String → HostField
deriving Repr, DecidableEq

/-- One parsed line of the dnsx output `resolved.json`.  Every record-type
field the tool is asked for is carried; `resolve_domains` reads only `host`,
and `build_results_table` reads `host`, `a`, `aaaa`, `cname`, `mx`, `txt`. -/
structure DnsLine where
  host : HostField
  a : List String
  aaaa : List String
  cname : List String
  mx : List String
  txt : List String
  ns : List String
  soa : List String
  caa : List String
deriving Repr, DecidableEq

/-- Hosts contributed by one parsed line (frogy.py lines 741-746): a string
`host` is appended, a list `host` is extended, an absent one contributes
nothing. -/
def hostsOf : HostField → List String
  | HostField.absent => []
  | HostField.str s => [s]
  | HostField.list l => l

/-- The live-host set written to `live.assets` by `resolve_domains`
(frogy.py lines 733-751): every host named by any parsed line, deduplicated
by `unique_lines` — no record-type condition is applied. -/
def liveDomains (lines : List DnsLine) : List String :=
  unique_lines (lines.foldr (fun r acc => hostsOf r.host ++ acc) [])

/-- A dnsx line for `x.com` carrying only a CNAME answer, no A/AAAA. -/
def cnameOnlyLine : DnsLine :=
  ⟨HostField.str "x.com", [], [], ["y.example.net"], [], [], [], [], []⟩

/-- C4 counterexample: a host whose parsed record carries only a `cname`
value (no `a` or `aaaa`) IS included in the live-host set, refuting the
claimed "iff at least one a or aaaa value". -/
theorem live_set_includes_cname_only_host :
    "x.com" ∈ liveDomains [cnameOnlyLine] ∧
    cnameOnlyLine.a = [] ∧ cnameOnlyLine.aaaa = [] ∧
    cnameOnlyLine.cname ≠ [] := by
  refine ⟨by decide, by decide, by decide, by decide⟩

/-- C4 amended: a host appears in the live-host set iff it is named by the
`host` field of at least one parsed line, whatever record types that line
carries: every live entry comes from some line's `host` field, and every
host named by a line (with a nonempty canonical key) is represented in the
live set by an entry with the same canonical key. -/
theorem liveDomains_spec (lines : List DnsLine) (h : String) :
    (h ∈ liveDomains lines → ∃ r ∈ lines, h ∈ hostsOf r.host) ∧
    (∀ r ∈ lines, h ∈ hostsOf r.host → uniqueKey h ≠ "" →
      ∃ g ∈ liveDomains lines, uniqueKey g = uniqueKey h) := by
  constructor
  · intro hmem
    have hsub : h ∈ lines.foldr (fun r acc => hostsOf r.host ++ acc) [] :=
      (uniqueLinesAux_sublist [] _).mem hmem
    clear hmem
    induction lines with
    | nil => simp at hsub
    | cons r rs ih =>
      simp only [List.foldr_cons, List.mem_append] at hsub
      rcases hsub with hr | hrs
      · exact ⟨r, List.mem_cons_self _ _, hr⟩
      · rcases ih hrs with ⟨r', hr', hh⟩
        exact ⟨r', List.mem_cons_of_mem _ hr', hh⟩
  · intro r hr hh hne
    have hflat : h ∈ lines.foldr (fun r acc => hostsOf r.host ++ acc) [] := by
      clear hne
      induction lines with
      | nil => simp at hr
      | cons r0 rs ih =>
        simp only [List.foldr_cons, List.mem_append]
        rcases List.mem_cons.mp hr with h0 | h0
        · exact Or.inl (h0 ▸ hh)
        · exact Or.inr (ih h0)
    have := @uniqueLinesAux_covers [] _ _ hflat hne (by simp)
    rcases List.mem_map.mp this with ⟨g, hg, hkey⟩
    exact ⟨g, hg, hkey⟩

/-- Witness for C4's amended statement at the cname-only line. -/
theorem liveDomains_spec_witness :
    (∃ r ∈ [cnameOnlyLine], "x.com" ∈ hostsOf r.host) ∧
    (∃ g ∈ liveDomains [cnameOnlyLine], uniqueKey g = uniqueKey "x.com") := by
  constructor
  · exact (liveDomains_spec [cnameOnlyLine] "x.com").1 (by decide)
  · exact (liveDomains_spec [cnameOnlyLine] "x.com").2 cnameOnlyLine
      (List.mem_cons_self _ _) (by decide) (by decide)

/-- The per-host DNS record kept by `build_results_table` (frogy.py lines
840-846): the full `a`/`aaaa`/`cname`/`mx`/`txt` lists of the parsed line. -/
structure DnsInfo where
  a : List String
  aaaa : List String
  cname : List String
  mx : List String
  txt : List String
deriving Repr, DecidableEq

def dnsInfoOf (r : DnsLine) : DnsInfo :=
  ⟨r.a, r.aaaa, r.cname, r.mx, r.txt⟩

/-- Python-dict assignment `m[k] = v` on an association list: replace the
existing binding in place, or append a new one. -/
def upsert {α : Type} : List (String × α) → String → α → List (String × α)
  | [], k, v => [(k, v)]
  | (k0, v0) :: rest, k, v =>
    if k0 = k then (k, v) :: rest else (k0, v0) :: upsert rest k v

/-- The `dns_data` map built by `build_results_table` from `resolved.json`
(frogy.py lines 829-850).  A line whose `host` is a JSON string keys the full
record lists; an absent or empty `host` is skipped; a line whose `host` is a
nonempty JSON list raises `TypeError` (unhashable dict key), which the
surrounding `except Exception: pass` turns into abandoning the rest of the
file, keeping what was read so far. -/
def buildDnsData : List DnsLine → List (String × DnsInfo) → List (String × DnsInfo)
  | [], acc => acc
  | r :: rest, acc =>
    match r.host with
    | HostField.absent => buildDnsData rest acc
    | HostField.str s =>
      if s = "" then buildDnsData rest acc
      else buildDnsData rest (upsert acc s (dnsInfoOf r))
    | HostField.list l =>
      if l = [] then buildDnsData rest acc else acc

/-- One row of the parsed `web_intelligence.csv` kept in `web_data`
(frogy.py lines 876-880). -/
structure WebRow where
  url : String
  status : String
  title : String
deriving Repr, DecidableEq

/-- One row of the final results table (frogy.py lines 977-983). -/
structure AssetRecord where
  domain : String
  ips : List String
  web_urls : List String
  sources : String
  status : String
deriving Repr, DecidableEq

/-- IP lookup of `build_results_table` (frogy.py lines 946-955): the `a` and
`aaaa` lists of the record found under the normalized key, else under the key
with trailing dots re-stripped (a no-op fallback kept from the source), else
empty. -/
def ipsFor (dns_data : List (String × DnsInfo)) (dn dn2 : String) : List String :=
  match dns_data.lookup dn with
  | some i => i.a ++ i.aaaa
  | none =>
    match dns_data.lookup dn2 with
    | some i => i.a ++ i.aaaa
    | none => []

/-- Web-row lookup of `build_results_table` (frogy.py lines 958-964). -/
def webRowsFor (web_data : List (String × List WebRow)) (dn dn2 : String) :
    List WebRow :=
  match web_data.lookup dn with
  | some rows => rows
  | none =>
    match web_data.lookup dn2 with
    | some rows => rows
    | none => []

/-- Web URLs of a record: the `url` fields of the first two rows
(frogy.py lines 959-964). -/
def webUrlsFor (web_data : List (String × List WebRow)) (dn dn2 : String) :
    List String :=
  ((webRowsFor web_data dn dn2).take 2).map WebRow.url

/-- Source attribution of a record (frogy.py lines 967-969). -/
def sourcesFor (sources_map : List (String × List String)) (dn dn2 : String) :
    List String :=
  let s0 := (sources_map.lookup dn).getD []
  if s0 = [] then (sources_map.lookup dn2).getD [] else s0

/-- One iteration of the results loop of `build_results_table` (frogy.py
lines 942-983).  `setList` stands for Python's `list(set(...))` — the
enumeration order of a `set` of strings, fixed for a given interpreter
process.  The emoji-tagged status strings are the exact strings the code
assigns. -/
def recordFor (setList : List String → List String)
    (dns_data : List (String × DnsInfo)) (web_data : List (String × List WebRow))
    (sources_map : List (String × List String)) (domain : String) : AssetRecord :=
  let dn := joinKey domain
  let dn2 : String := ⟨rstripDots dn.data⟩
  let ips := (setList (ipsFor dns_data dn dn2)).take 3
  let web_urls := webUrlsFor web_data dn dn2
  let sources := sourcesFor sources_map dn dn2
  let source_str := if sources = [] then "unknown" else String.intercalate ", " sources
  let status := if web_urls = [] then (if ips = [] then "⚪ No IP" else "🟢 Live")
                else "🌐 Web"
  ⟨domain, ips, web_urls, source_str, status⟩

/-- The results table of `build_results_table` (frogy.py lines 940-985): one
record per master-list entry, in master-list order. -/
def buildResults (setList : List String → List String) (all_domains : List String)
    (dns_data : List (String × DnsInfo)) (web_data : List (String × List WebRow))
    (sources_map : List (String × List String)) : List AssetRecord :=
  all_domains.map (recordFor setList dns_data web_data sources_map)

/-- `setList` enumerates a Python `set`: its output lists the distinct
elements of its input, each exactly once, in the process's fixed order. -/
def IsSetList (f : List String → List String) : Prop :=
  ∀ l, (f l).Nodup ∧ ∀ x, x ∈ f l ↔ x ∈ l

theorem setList_nil {f : List String → List String} (hf : IsSetList f) :
    f [] = [] := by
  obtain ⟨-, hm⟩ := hf []
  cases h : f [] with
  | nil => rfl
  | cons x t =>
    have hx : x ∈ f [] := by rw [h]; exact List.mem_cons_self _ _
    have := (hm x).mp hx
    simp at this

theorem setList_single {f : List String → List String} (hf : IsSetList f)
    (a : String) : f [a] = [a] := by
  obtain ⟨hnd, hm⟩ := hf [a]
  have hmem : ∀ z, z ∈ f [a] ↔ z = a := by
    intro z
    rw [hm z]
    simp
  cases h : f [a] with
  | nil =>
    have ha : a ∈ f [a] := (hmem a).mpr rfl
    rw [h] at ha
    simp at ha
  | cons x t =>
    have hx : x = a := (hmem x).mp (by rw [h]; exact List.mem_cons_self _ _)
    subst hx
    cases t with
    | nil => rfl
    | cons y t' =>
      have hy : y = x := (hmem y).mp (by rw [h]; simp)
      rw [h] at hnd
      rw [hy] at hnd
      simp at hnd

theorem isSetList_dedup : IsSetList (fun l => l.dedup) := by
  intro l
  exact ⟨l.nodup_dedup, fun x => List.mem_dedup⟩

theorem recordFor_ips (f : List String → List String) (dd : List (String × DnsInfo))
    (wd : List (String × List WebRow)) (sm : List (String × List String))
    (d : String) :
    (recordFor f dd wd sm d).ips =
      (f (ipsFor dd (joinKey d) ⟨rstripDots (joinKey d).data⟩)).take 3 := rfl

theorem recordFor_web (f : List String → List String) (dd : List (String × DnsInfo))
    (wd : List (String × List WebRow)) (sm : List (String × List String))
    (d : String) :
    (recordFor f dd wd sm d).web_urls =
      ((webRowsFor wd (joinKey d) ⟨rstripDots (joinKey d).data⟩).take 2).map
        WebRow.url := rfl

theorem recordFor_eval (f : List String → List String)
    (dd : List (String × DnsInfo)) (wd : List (String × List WebRow))
    (sm : List (String × List String)) (d : String) (ips1 : List String)
    (h1 : f (ipsFor dd (joinKey d) ⟨rstripDots (joinKey d).data⟩) = ips1) :
    recordFor f dd wd sm d =
      ⟨d, ips1.take 3, webUrlsFor wd (joinKey d) ⟨rstripDots (joinKey d).data⟩,
        (if sourcesFor sm (joinKey d) ⟨rstripDots (joinKey d).data⟩ = []
         then "unknown"
         else String.intercalate ", "
           (sourcesFor sm (joinKey d) ⟨rstripDots (joinKey d).data⟩)),
        (if webUrlsFor wd (joinKey d) ⟨rstripDots (joinKey d).data⟩ = []
         then (if ips1.take 3 = [] then "⚪ No IP" else "🟢 Live")
         else "🌐 Web")⟩ := by
  subst h1
  rfl

def c5dns : List (String × DnsInfo) :=
  [("x.example.com", ⟨["1.2.3.4"], [], [], [], []⟩)]

def c5web : List (String × List WebRow) :=
  [("x.example.com", [⟨"http://x.example.com", "200", "Home"⟩])]

def c5src : List (String × List String) :=
  [("x.example.com", ["passive-enumeration"])]

/-- C5: `build_results_table` classifies in priority order — web endpoint ⇒
`"🌐 Web"`, else A/AAAA value ⇒ `"🟢 Live"`, else `"⚪ No IP"` — and on the
claimed instance (one accumulated host, one A record, one web endpoint,
attribution `passive-enumeration`) yields exactly one record with the Web
status, IP set `["1.2.3.4"]`, the one URL and sources
`"passive-enumeration"`.  The two degraded variants of the same instance
witness the remaining priority branches. -/
theorem build_report_join (f : List String → List String) (hf : IsSetList f) :
    buildResults f ["x.example.com"] c5dns c5web c5src =
      [⟨"x.example.com", ["1.2.3.4"], ["http://x.example.com"],
        "passive-enumeration", "🌐 Web"⟩] ∧
    buildResults f ["x.example.com"] c5dns [] c5src =
      [⟨"x.example.com", ["1.2.3.4"], [], "passive-enumeration", "🟢 Live"⟩] ∧
    buildResults f ["x.example.com"] [] [] c5src =
      [⟨"x.example.com", [], [], "passive-enumeration", "⚪ No IP"⟩] := by
  refine ⟨?_, ?_, ?_⟩
  · show [recordFor f c5dns c5web c5src "x.example.com"] = _
    rw [recordFor_eval f c5dns c5web c5src "x.example.com" ["1.2.3.4"]
      (setList_single hf "1.2.3.4")]
    decide
  · show [recordFor f c5dns [] c5src "x.example.com"] = _
    rw [recordFor_eval f c5dns [] c5src "x.example.com" ["1.2.3.4"]
      (setList_single hf "1.2.3.4")]
    decide
  · show [recordFor f [] [] c5src "x.example.com"] = _
    rw [recordFor_eval f [] [] c5src "x.example.com" [] (setList_nil hf)]
    decide

/-- Witness for C5 with `setList` instantiated by `List.dedup` (one valid
per-process enumeration of a Python set). -/
theorem build_report_join_witness :
    buildResults (fun l => l.dedup) ["x.example.com"] c5dns c5web c5src =
      [⟨"x.example.com", ["1.2.3.4"], ["http://x.example.com"],
        "passive-enumeration", "🌐 Web"⟩] ∧
    buildResults (fun l => l.dedup) ["x.example.com"] c5dns [] c5src =
      [⟨"x.example.com", ["1.2.3.4"], [], "passive-enumeration", "🟢 Live"⟩] ∧
    buildResults (fun l => l.dedup) ["x.example.com"] [] [] c5src =
      [⟨"x.example.com", [], [], "passive-enumeration", "⚪ No IP"⟩] :=
  build_report_join (fun l => l.dedup) isSetList_dedup

/-- C7: with the DNS adapter unavailable no `resolved.json` and no
`web_intelligence.csv` exist, so `dns_data` and `web_data` are empty;
`build_results_table` still yields one record per accumulated master-list
host, in order, each with empty IP and web-URL fields and status
`"⚪ No IP"`, and no lookup fails. -/
theorem build_report_degrades (f : List String → List String)
    (hf : IsSetList f) (dom : List String) (sm : List (String × List String)) :
    ((buildResults f dom [] [] sm).map AssetRecord.domain = dom) ∧
    (∀ r ∈ buildResults f dom [] [] sm,
      r.ips = [] ∧ r.web_urls = [] ∧ r.status = "⚪ No IP") := by
  constructor
  · unfold buildResults
    rw [List.map_map]
    have h : ∀ d ∈ dom, (AssetRecord.domain ∘ recordFor f [] [] sm) d = id d :=
      fun d _ => rfl
    rw [List.map_congr_left h, List.map_id]
  · intro r hr
    rcases List.mem_map.mp hr with ⟨d, -, rfl⟩
    rw [recordFor_eval f [] [] sm d [] (setList_nil hf)]
    refine ⟨rfl, rfl, rfl⟩

/-- Witness for C7 at a concrete master list and attribution map. -/
theorem build_report_degrades_witness :
    ((buildResults (fun l => l.dedup) ["a.example.com", "b.example.com"] [] []
        c5src).map AssetRecord.domain = ["a.example.com", "b.example.com"]) ∧
    (∀ r ∈ buildResults (fun l => l.dedup) ["a.example.com", "b.example.com"]
        [] [] c5src,
      r.ips = [] ∧ r.web_urls = [] ∧ r.status = "⚪ No IP") :=
  build_report_degrades (fun l => l.dedup) isSetList_dedup
    ["a.example.com", "b.example.com"] c5src

def fiveIpLine : DnsLine :=
  ⟨HostField.str "h5.example.com",
    ["10.0.0.1", "10.0.0.2", "10.0.0.3", "10.0.0.4", "10.0.0.5"],
    [], [], [], [], [], [], []⟩

/-- C8: a host resolving to 5 IP addresses keeps all 5 in the `dns_data`
record map, while every AssetRecord the report builds carries at most 3 IPs
and at most 2 web URLs — the truncation lives only in the report loop, never
in the record maps. -/
theorem report_truncation_display_only :
    buildDnsData [fiveIpLine] [] =
      [("h5.example.com",
        ⟨["10.0.0.1", "10.0.0.2", "10.0.0.3", "10.0.0.4", "10.0.0.5"],
          [], [], [], []⟩)] ∧
    ∀ (f : List String → List String) (dom : List String)
      (dd : List (String × DnsInfo)) (wd : List (String × List WebRow))
      (sm : List (String × List String)) (r : AssetRecord),
      r ∈ buildResults f dom dd wd sm →
      r.ips.length ≤ 3 ∧ r.web_urls.length ≤ 2 := by
  constructor
  · decide
  · intro f dom dd wd sm r hr
    rcases List.mem_map.mp hr with ⟨d, -, rfl⟩
    constructor
    · rw [recordFor_ips]
      simp [Nat.min_le_left]
    · rw [recordFor_web]
      simp [Nat.min_le_left]

/-- Witness for C8: the record built for the 5-IP host from its own retained
record map obeys both caps. -/
theorem report_truncation_display_only_witness :
    buildDnsData [fiveIpLine] [] =
      [("h5.example.com",
        ⟨["10.0.0.1", "10.0.0.2", "10.0.0.3", "10.0.0.4", "10.0.0.5"],
          [], [], [], []⟩)] ∧
    (recordFor (fun l => l.dedup) (buildDnsData [fiveIpLine] []) [] []
        "h5.example.com").ips.length ≤ 3 ∧
    (recordFor (fun l => l.dedup) (buildDnsData [fiveIpLine] []) [] []
        "h5.example.com").web_urls.length ≤ 2 := by
  refine ⟨report_truncation_display_only.1, ?_⟩
  exact report_truncation_display_only.2 (fun l => l.dedup) ["h5.example.com"]
    (buildDnsData [fiveIpLine] []) [] [] _ (List.mem_cons_self _ _)

/-- C9: for fixed upstream artifacts (master list, DNS records, web rows,
attribution) and the process's fixed set-enumeration order, the report is a
pure function — repeated calls return the same AssetRecord sequence — and
its order is exactly the Accumulator/master-list insertion order. -/
theorem build_report_deterministic (f : List String → List String)
    (dom : List String) (dd : List (String × DnsInfo))
    (wd : List (String × List WebRow)) (sm : List (String × List String)) :
    buildResults f dom dd wd sm = buildResults f dom dd wd sm ∧
    (buildResults f dom dd wd sm).map AssetRecord.domain = dom := by
  refine ⟨rfl, ?_⟩
  unfold buildResults
  rw [List.map_map]
  have h : ∀ d ∈ dom, (AssetRecord.domain ∘ recordFor f dd wd sm) d = id d :=
    fun d _ => rfl
  rw [List.map_congr_left h, List.map_id]

/-- `l.all` that no character is a dot — one `[^.]` segment of the
root-extraction pattern. -/
def noDotB (l : List Char) : Bool :=
  l.all (fun c => c != '.')

/-- The root-extraction regex `[^.]*.[^.]{2,3}(?:.[^.]{2,3})?$` of
`extract_root_domains` (frogy.py line 645; the two inner dots are unescaped
wildcards), with the optional group absent: `t` decomposes as
`A ++ [x] ++ B` with `A` dot-free, `x` arbitrary and `B` dot-free of length
`b`.  For a fixed `b` and total length the split positions are forced, so
existence of a decomposition is this positional check. -/
def seg1 (t : List Char) (b : Nat) : Bool :=
  decide (b + 1 ≤ t.length) && noDotB (t.drop (t.length - b)) &&
    noDotB (t.take (t.length - b - 1))

/-- The same regex with the optional group present:
`A ++ [x] ++ B ++ [y] ++ C`, `B` of length `b` and `C` of length `c`. -/
def seg2 (t : List Char) (b c : Nat) : Bool :=
  decide (b + c + 2 ≤ t.length) && noDotB (t.drop (t.length - c)) &&
    noDotB ((t.drop (t.length - (b + c + 1))).take b) &&
    noDotB (t.take (t.length - (b + c + 2)))

/-- Whether the pattern matches the whole of `t` (every match of the
`$`-anchored pattern starting a given position consumes the entire rest of
the string, so this is match success at that position). -/
def matchesPat (t : List Char) : Bool :=
  seg1 t 2 || seg1 t 3 || seg2 t 2 2 || seg2 t 2 3 || seg2 t 3 2 || seg2 t 3 3

/-- `re.finditer` on the anchored pattern: scan start positions left to
right — i.e. suffixes longest first — and return the first (hence leftmost,
and only) match. -/
def firstMatch : List Char → Option (List Char)
  | [] => none
  | c :: rest =>
    if matchesPat (c :: rest) then some (c :: rest) else firstMatch rest

/-- Per-domain body of `extract_root_domains` (frogy.py lines 647-657) after
the `domain.strip().lower()` normalization: skip entries that are empty or
contain a space or `@`; otherwise take the regex match, lowercase and strip
it again, and keep it only if nonempty and containing a dot. -/
def rootOfNorm (d : List Char) : Option String :=
  if d.isEmpty || d.contains ' ' || d.contains '@' then none
  else
    match firstMatch d with
    | none => none
    | some m =>
      let r := pyStripL (m.map Char.toLower)
      if r.isEmpty then none
      else if r.contains '.' then some ⟨r⟩ else none

/-- Root extraction for one raw domain (frogy.py lines 647-657). -/
def rootOf (domain : String) : Option String :=
  rootOfNorm (pyLowerL (pyStripL domain.data))

/-- Adding one domain's root to the root set (`root_domains.add`,
frogy.py line 657; the Python `set` is modelled as a first-occurrence-order
duplicate-free list, so only its contents are significant). -/
def extractStep (acc : List String) (d : String) : List String :=
  match rootOf d with
  | none => acc
  | some r => if acc.contains r then acc else acc ++ [r]

/-- `extract_root_domains` (frogy.py lines 641-659): the set of roots of all
the domains. -/
def extract_root_domains (domains : List String) : List String :=
  domains.foldl extractStep []

theorem noDotB_eq_false_of_mem {l : List Char} (h : '.' ∈ l) :
    noDotB l = false := by
  rw [Bool.eq_false_iff]
  intro hall
  rw [noDotB, List.all_eq_true] at hall
  have := hall '.' h
  simp at this

theorem dot_mem_take {u v : List Char} {n : Nat}
    (h1 : u.length + 1 ≤ n) :
    '.' ∈ (u ++ '.' :: v).take n := by
  rw [List.take_append_eq_append_take]
  refine List.mem_append.mpr (Or.inr ?_)
  obtain ⟨m, hm⟩ : ∃ m, n - u.length = m + 1 := ⟨n - u.length - 1, by omega⟩
  rw [hm, List.take_succ_cons]
  exact List.mem_cons_self _ _

theorem matchesPat_eq_false (u v : List Char) (hv : v.length = 11) :
    matchesPat (u ++ '.' :: v) = false := by
  have hlen : (u ++ '.' :: v).length = u.length + 12 := by
    simp [hv]
  have hmem : ∀ k : Nat, k ≤ 8 →
      '.' ∈ (u ++ '.' :: v).take ((u ++ '.' :: v).length - k) := by
    intro k hk
    exact dot_mem_take (by omega)
  have f3 : noDotB ((u ++ '.' :: v).take ((u ++ '.' :: v).length - 2 - 1)) = false := by
    have e : (u ++ '.' :: v).length - 2 - 1 = (u ++ '.' :: v).length - 3 := by omega
    rw [e]
    exact noDotB_eq_false_of_mem (hmem 3 (by omega))
  have f4 : noDotB ((u ++ '.' :: v).take ((u ++ '.' :: v).length - 3 - 1)) = false := by
    have e : (u ++ '.' :: v).length - 3 - 1 = (u ++ '.' :: v).length - 4 := by omega
    rw [e]
    exact noDotB_eq_false_of_mem (hmem 4 (by omega))
  have f6 : noDotB ((u ++ '.' :: v).take ((u ++ '.' :: v).length - (2 + 2 + 2))) = false := by
    have e : (u ++ '.' :: v).length - (2 + 2 + 2) = (u ++ '.' :: v).length - 6 := by omega
    rw [e]
    exact noDotB_eq_false_of_mem (hmem 6 (by omega))
  have f7 : noDotB ((u ++ '.' :: v).take ((u ++ '.' :: v).length - (2 + 3 + 2))) = false := by
    have e : (u ++ '.' :: v).length - (2 + 3 + 2) = (u ++ '.' :: v).length - 7 := by omega
    rw [e]
    exact noDotB_eq_false_of_mem (hmem 7 (by omega))
  have f7b : noDotB ((u ++ '.' :: v).take ((u ++ '.' :: v).length - (3 + 2 + 2))) = false := by
    have e : (u ++ '.' :: v).length - (3 + 2 + 2) = (u ++ '.' :: v).length - 7 := by omega
    rw [e]
    exact noDotB_eq_false_of_mem (hmem 7 (by omega))
  have f8 : noDotB ((u ++ '.' :: v).take ((u ++ '.' :: v).length - (3 + 3 + 2))) = false := by
    have e : (u ++ '.' :: v).length - (3 + 3 + 2) = (u ++ '.' :: v).length - 8 := by omega
    rw [e]
    exact noDotB_eq_false_of_mem (hmem 8 (by omega))
  rw [matchesPat, seg1, seg1, seg2, seg2, seg2, seg2, f3, f4, f6, f7, f8]
  simp

def exComL : List Char := "example.com".data

theorem firstMatch_cons (c : Char) (rest : List Char) :
    firstMatch (c :: rest) =
      if matchesPat (c :: rest) then some (c :: rest) else firstMatch rest := rfl

theorem firstMatch_under (u : List Char) :
    firstMatch (u ++ '.' :: exComL) = some exComL := by
  induction u with
  | nil =>
    rw [List.nil_append]
    decide
  | cons c u' ih =>
    rw [List.cons_append]
    have hf : matchesPat (c :: (u' ++ '.' :: exComL)) = false := by
      rw [← List.cons_append]
      exact matchesPat_eq_false (c :: u') exComL (by decide)
    rw [firstMatch_cons, hf]
    rw [if_neg (by simp)]
    exact ih

/-- A host string that, after the loop's `strip().lower()` normalization, is
`example.com` itself or lies strictly under it (ends in `.example.com`) —
i.e. a host of the Accumulator widened by the extracted root. -/
def underExampleCom (h : String) : Prop :=
  pyLowerL (pyStripL h.data) = exComL ∨
  ∃ u : List Char, pyLowerL (pyStripL h.data) = u ++ '.' :: exComL

theorem rootOfNorm_under (u : List Char) :
    rootOfNorm (u ++ '.' :: exComL) = none ∨
    rootOfNorm (u ++ '.' :: exComL) = some "example.com" := by
  by_cases hskip : ((u ++ '.' :: exComL).isEmpty ||
      (u ++ '.' :: exComL).contains ' ' || (u ++ '.' :: exComL).contains '@') = true
  · left
    unfold rootOfNorm
    rw [if_pos hskip]
  · right
    unfold rootOfNorm
    rw [if_neg hskip, firstMatch_under u]
    decide

theorem rootOf_under {h : String} (hu : underExampleCom h) :
    rootOf h = none ∨ rootOf h = some "example.com" := by
  unfold rootOf
  rcases hu with h1 | ⟨u, h2⟩
  · rw [h1]
    right
    decide
  · rw [h2]
    exact rootOfNorm_under u

theorem extract_stable (l : List String) (acc : List String)
    (hl : ∀ h ∈ l, rootOf h = none ∨ rootOf h = some "example.com")
    (hacc : acc.contains "example.com" = true) :
    l.foldl extractStep acc = acc := by
  induction l with
  | nil => rfl
  | cons x t ih =>
    rw [List.foldl_cons]
    have hx : extractStep acc x = acc := by
      unfold extractStep
      rcases hl x (List.mem_cons_self _ _) with h | h
      · rw [h]
      · rw [h]
        show (if acc.contains "example.com" then acc else acc ++ ["example.com"]) = acc
        rw [if_pos hacc]
    rw [hx]
    exact ih (fun h hh => hl h (List.mem_cons_of_mem _ hh))

def origHosts : List String := ["a.b.example.com", "example.com", "www.example.com"]

/-- C6: on the hosts `["a.b.example.com", "example.com", "www.example.com"]`
root extraction yields exactly the singleton root set `{"example.com"}`, and
extraction re-applied to any widening of that Accumulator by hosts under the
extracted root (each normalizing to `example.com` or to something ending in
`.example.com`) yields the same root set — a fixed point on its own widened
output. -/
theorem extract_root_domains_fixed_point :
    extract_root_domains origHosts = ["example.com"] ∧
    ∀ extra : List String, (∀ h ∈ extra, underExampleCom h) →
      extract_root_domains (origHosts ++ extra) = ["example.com"] := by
  have h1 : extract_root_domains origHosts = ["example.com"] := by decide
  refine ⟨h1, ?_⟩
  intro extra hextra
  unfold extract_root_domains at h1 ⊢
  rw [List.foldl_append, h1]
  exact extract_stable extra ["example.com"]
    (fun h hh => rootOf_under (hextra h hh)) (by decide)

/-- Witness for C6: widening the original hosts by two concrete subdomains
of the extracted root leaves the root set unchanged. -/
theorem extract_root_domains_fixed_point_witness :
    extract_root_domains
        (origHosts ++ ["foo.example.com", "Deep.Sub.Example.COM"]) =
      ["example.com"] := by
  apply extract_root_domains_fixed_point.2
  intro h hh
  rcases List.mem_cons.mp hh with h1 | h1
  · subst h1
    exact Or.inr ⟨"foo".data, by decide⟩
  · rcases List.mem_cons.mp h1 with h2 | h2
    · subst h2
      exact Or.inr ⟨"deep.sub".data, by decide⟩
    · simp at h2
